import Mathlib

/-!
Shallow embedding of `be/src/exec/partitioned-hash-join-builder-ir.cc`:
`PhjBuilder::AppendRow`, `PhjBuilder::ProcessBuildBatch` and
`PhjBuilder::Partition::InsertBatch`, together with theorems checking the
specification of the build-side partitioning and hash-table insertion core.

Machine integers are modelled as `Nat`; all key hashes produced by the key
evaluator are `uint32_t` in the source, which appears here as the hypothesis
`h < 2 ^ 32` where it matters.  External collaborators (key evaluator, raw
value hashing, stream append outcomes) are pure in the source's view and are
passed in as data or functions.
-/

set_option autoImplicit false

namespace Impala

/-- Outcome of `BufferedTupleStream::AddRow(row, &status)` as observed by
`PhjBuilder::AppendRow`: `added` = returned `true`; `pageFull` = returned
`false` with an OK status (the current page is full); `hardError e` =
returned `false` with a non-OK status carrying error code `e`. -/
inductive AddRowRes where
  | added
  | pageFull
  | hardError (e : Nat)
deriving DecidableEq

/-- `impala::Status`: OK or an error code. -/
inductive Status where
  | ok
  | error (e : Nat)
deriving DecidableEq

/-- A buffered tuple stream, abstracted to the ordered list of rows appended
to it (rows are identified by a natural number). -/
structure Stream where
  rows : List Nat
deriving DecidableEq

/-- Modelled from the spec: `PhjBuilder::AppendRowStreamFull` is declared in
`partitioned-hash-join-builder.h` and defined outside this translation unit.
Per the spec (§4.2) the slow path either extends the stream with a new page
(possibly after spilling) and retries the append, returning OK with the row
appended, or surfaces an error, leaving the stream either with the row
appended or with the error surfaced; we take the non-appended reading on
error.  Its outcome is supplied as `slow`. -/
def AppendRowStreamFull (s : Stream) (r : Nat) (slow : Status) : Status × Stream :=
  match slow with
  | Status.ok => (Status.ok, ⟨s.rows ++ [r]⟩)
  | Status.error e => (Status.error e, s)

/-- `PhjBuilder::AppendRow(stream, row)`: try the non-growing `AddRow`; on
`true` return OK; on `false` with a non-OK status surface it
(`RETURN_IF_ERROR(status)`); otherwise call `AppendRowStreamFull`.
Returns (status, stream after the call, number of slow-path invocations). -/
def AppendRow (s : Stream) (r : Nat) (addRes : AddRowRes) (slow : Status) :
    Status × Stream × Nat :=
  match addRes with
  | AddRowRes.added => (Status.ok, ⟨s.rows ++ [r]⟩, 0)
  | AddRowRes.hardError e => (Status.error e, s, 0)
  | AddRowRes.pageFull =>
      ((AppendRowStreamFull s r slow).1, (AppendRowStreamFull s r slow).2, 1)

/-- One build row as `ProcessBuildBatch` observes it: `keyHash` is the result
of `HashTableCtx::EvalAndHashBuild` (`none` = the join key evaluated NULL,
`some h` = success with 32-bit hash `h`); `filterVals` is the value of each
filter context's expression on this row (`none` = NULL value); `appendErr` is
the outcome of the single `AppendRow` call this row can trigger (`none` = OK,
`some e` = hard error `e`). -/
structure BuildRow where
  keyHash : Option Nat
  filterVals : List (Option Int)
  appendErr : Option Nat
deriving DecidableEq

/-- Default row used with `List.getD`. -/
def dRow : BuildRow := ⟨none, [], none⟩

/-- `impala::FilterContext` as the core reads it: whether
`local_bloom_filter` is non-null. -/
structure FilterContext where
  hasBloom : Bool
deriving DecidableEq

/-- The builder state that `ProcessBuildBatch` can touch: the streams of the
`2^B` hash partitions (each a list of row identifiers in append order), the
null-aware partition's stream (`none` when `null_aware_partition_ == NULL`),
the local bloom filters (one slot per filter context, as the list of hashes
inserted so far), and `otherState`, an opaque stand-in for every other field
of the builder. -/
structure PhjState where
  hashPartitions : List (List Nat)
  nullStream : Option (List Nat)
  blooms : List (List Nat)
  otherState : Nat
deriving DecidableEq

/-- `hash_partitions_[idx]->build_rows()` append: add `x` at the end of the
`idx`-th stream. -/
def appendAt : List (List Nat) → Nat → Nat → List (List Nat)
  | [], _, _ => []
  | l :: rest, 0, x => (l ++ [x]) :: rest
  | l :: rest, i + 1, x => l :: appendAt rest i x

/-- The per-row runtime-filter loop of `ProcessBuildBatch`: walk `filters_`
paired with the row's expression values; for every context with a non-null
`local_bloom_filter`, hash the (possibly NULL) value with `getH` (modelling
`RawValue::GetHashValue(e, type, RuntimeFilterBank::DefaultHashSeed())`) and
insert the hash into that bloom filter. -/
def bloomInsertRow (getH : Option Int → Nat) :
    List (FilterContext × Option Int) → List (List Nat) → List (List Nat)
  | _, [] => []
  | [], bs => bs
  | (f, v) :: rest, b :: bs =>
      (if f.hasBloom then b ++ [getH v] else b) :: bloomInsertRow getH rest bs

/-- The `if (build_filters)` block of `ProcessBuildBatch` for one row: when
`buildFilters` is set, run the per-filter loop on this row; otherwise leave
the state untouched. -/
def applyFilters (filters : List FilterContext) (getH : Option Int → Nat)
    (buildFilters : Bool) (st : PhjState) (r : BuildRow) : PhjState :=
  if buildFilters then
    { st with blooms := bloomInsertRow getH (filters.zip r.filterVals) st.blooms }
  else st

/-- The body of the `FOREACH_ROW` loop of `PhjBuilder::ProcessBuildBatch` for
the row at batch position `pos`.  Returns the new state and `some e` when a
`RETURN_IF_ERROR` fires with error `e`.  Note the source order: the filter
loop runs before the `AppendRow` of a non-NULL-keyed row, so on an append
error the filter insertions of that row have already happened. -/
def processRow (B : Nat) (filters : List FilterContext) (getH : Option Int → Nat)
    (buildFilters : Bool) (st : PhjState) (pos : Nat) (r : BuildRow) :
    PhjState × Option Nat :=
  match r.keyHash with
  | none =>
      match st.nullStream with
      | none => (st, none)
      | some ns =>
          match r.appendErr with
          | some e => (st, some e)
          | none => ({ st with nullStream := some (ns ++ [pos]) }, none)
  | some h =>
      match r.appendErr with
      | some e => (applyFilters filters getH buildFilters st r, some e)
      | none =>
          ({ applyFilters filters getH buildFilters st r with
              hashPartitions :=
                appendAt (applyFilters filters getH buildFilters st r).hashPartitions
                  (h >>> (32 - B)) pos },
            none)

/-- The `FOREACH_ROW` loop of `PhjBuilder::ProcessBuildBatch`, starting at
batch position `pos`. -/
def processRows (B : Nat) (filters : List FilterContext) (getH : Option Int → Nat)
    (buildFilters : Bool) : PhjState → Nat → List BuildRow → PhjState × Option Nat
  | st, _, [] => (st, none)
  | st, pos, r :: rs =>
      match processRow B filters getH buildFilters st pos r with
      | (st1, some e) => (st1, some e)
      | (st1, none) => processRows B filters getH buildFilters st1 (pos + 1) rs

/-- `PhjBuilder::ProcessBuildBatch(build_batch, ctx, build_filters)`.
`B` is `NUM_PARTITIONING_BITS`.  Returns the final builder state and
`none` for `Status::OK()` or `some e` for a surfaced error. -/
def ProcessBuildBatch (B : Nat) (filters : List FilterContext)
    (getH : Option Int → Nat) (st : PhjState) (rows : List BuildRow)
    (buildFilters : Bool) : PhjState × Option Nat :=
  processRows B filters getH buildFilters st 0 rows

/-- Positions (starting at `pos`) of the rows whose key hash routes them to
hash partition `j`, in input order: exactly the rows with a non-NULL key and
`keyHash >>> (32 - B) = j`. -/
def routedPositions (B : Nat) : Nat → List BuildRow → Nat → List Nat
  | _, [], _ => []
  | pos, r :: rs, j =>
      (match r.keyHash with
       | some h => if h >>> (32 - B) = j then [pos] else []
       | none => []) ++ routedPositions B (pos + 1) rs j

/-- Positions (starting at `pos`) of the rows whose join key evaluated NULL,
in input order. -/
def nullPositions : Nat → List BuildRow → List Nat
  | _, [] => []
  | pos, r :: rs =>
      (match r.keyHash with
       | none => [pos]
       | some _ => []) ++ nullPositions (pos + 1) rs

/-- Hashes contributed to the `k`-th bloom filter by a row sequence: one hash
per row with a non-NULL join key, namely `getH` of that row's `k`-th filter
expression value; NULL-keyed rows contribute nothing. -/
def bloomContrib (getH : Option Int → Nat) (k : Nat) (rows : List BuildRow) : List Nat :=
  rows.filterMap (fun r =>
    match r.keyHash with
    | some _ => some (getH (r.filterVals.getD k none))
    | none => none)

/-- A row's `AppendRow` call (if it makes one) succeeds: rows with a non-NULL
key always call `AppendRow`; NULL-keyed rows call it only when the null-aware
partition is configured (`hasNull`). -/
def rowOk (hasNull : Bool) (r : BuildRow) : Bool :=
  match r.keyHash with
  | none => !hasNull || r.appendErr == none
  | some _ => r.appendErr == none

/-- The row's key hash, when present, fits in 32 bits (it is a `uint32_t` in
the source). -/
def rowHashOk (r : BuildRow) : Bool :=
  match r.keyHash with
  | some h => decide (h < 2 ^ 32)
  | none => true

/-- Total number of rows held across the hash-partition streams and the
null-aware stream. -/
def streamTotal (st : PhjState) : Nat :=
  (st.hashPartitions.map List.length).sum + (st.nullStream.getD []).length

/-- `TPrefetchMode::type` as used by `Partition::InsertBatch`. -/
inductive TPrefetchMode where
  | NONE
  | HT_BUCKET
  | HT_BUCKET_AND_NODE
deriving DecidableEq

/-- `HashTable::Insert(ht_ctx, row_idx, row)` over a table abstracted to its
insertion sequence of (hash, RowIdx) pairs: succeeds exactly while the table
has free capacity (failure means capacity/reservation exhausted, spec §4.4),
returning the grown table; `none` on failure. -/
def htInsert (cap : Nat) (ht : List (Nat × Nat)) (h idx : Nat) :
    Option (List (Nat × Nat)) :=
  if ht.length < cap then some (ht ++ [(h, idx)]) else none

/-- The write phase of one prefetch group of `Partition::InsertBatch`: for
each row, `EvalAndHashBuild` either caches `some hash` — issuing a bucket
prefetch when `prefetch_mode != TPrefetchMode::NONE` — or `SetRowNull` caches
`none`; `NextRow` consumes one cache slot either way.  Returns the cache
slots in write order and the hashes prefetched. -/
def writeStep (mode : TPrefetchMode) (acc : List (Option Nat) × List Nat)
    (kh : Option Nat) : List (Option Nat) × List Nat :=
  match kh with
  | some h =>
      (acc.1 ++ [some h],
        if mode = TPrefetchMode.NONE then acc.2 else acc.2 ++ [h])
  | none => (acc.1 ++ [none], acc.2)

def writePhase (mode : TPrefetchMode) (g : List (Option Nat)) :
    List (Option Nat) × List Nat :=
  g.foldl (writeStep mode) ([], [])

/-- The read phase of one prefetch group of `Partition::InsertBatch`: walk
the cached slots paired with the global row indices; skip NULL slots; on a
non-NULL slot attempt `HashTable::Insert` and return `false` immediately when
it fails.  Returns the success flag and the table. -/
def readPhase (cap : Nat) : List (Option Nat × Nat) → List (Nat × Nat) →
    Bool × List (Nat × Nat)
  | [], ht => (true, ht)
  | (slot, idx) :: rest, ht =>
      match slot with
      | none => readPhase cap rest ht
      | some h =>
          match htInsert cap ht h idx with
          | some ht1 => readPhase cap rest ht1
          | none => (false, ht)

/-- Fuel-indexed worker for `chunksOf`; the fuel only serves structural
termination and is irrelevant as long as it is at least the list length. -/
def chunksOfGo {α : Type} (C : Nat) : Nat → List α → List (List α)
  | _, [] => []
  | 0, _ :: _ => []
  | fuel + 1, a :: l => (a :: l.take (C - 1)) :: chunksOfGo C fuel (l.drop (C - 1))

/-- Split a list into contiguous groups of `C` elements (the outer
`prefetch_group_row += prefetch_size` loop); the last group may be shorter. -/
def chunksOf {α : Type} (C : Nat) (l : List α) : List (List α) :=
  chunksOfGo C l.length l

/-- The outer loop of `Partition::InsertBatch` over prefetch groups: for each
group run the write phase (filling the evaluator cache and collecting
prefetches) then the read phase (insertions); stop with `false` as soon as a
read phase fails. Returns (success, table, prefetched hashes). -/
def insertGroups (mode : TPrefetchMode) (cap : Nat) :
    List (List (Option Nat × Nat)) → List (Nat × Nat) → List Nat →
      Bool × List (Nat × Nat) × List Nat
  | [], ht, pf => (true, ht, pf)
  | g :: gs, ht, pf =>
      let w := writePhase mode (g.map Prod.fst)
      match readPhase cap (w.1.zip (g.map Prod.snd)) ht with
      | (false, ht1) => (false, ht1, pf ++ w.2)
      | (true, ht1) => insertGroups mode cap gs ht1 (pf ++ w.2)

/-- `PhjBuilder::Partition::InsertBatch(prefetch_mode, ht_ctx, batch,
indices)`: `rows` holds `EvalAndHashBuild`'s result per batch row (`none` =
NULL join key), `indices` the parallel `RowIdx` vector, `C` the evaluator
cache capacity, `cap` the hash table's remaining insert capacity; the table
starts empty.  Returns (success, final table, prefetched hashes). -/
def InsertBatch (mode : TPrefetchMode) (C cap : Nat)
    (rows : List (Option Nat)) (indices : List Nat) :
    Bool × List (Nat × Nat) × List Nat :=
  insertGroups mode cap (chunksOf C (rows.zip indices)) [] []

/-- The (hash, RowIdx) pairs of the non-NULL-keyed rows of a batch, in batch
order. -/
def nonNullPairs (l : List (Option Nat × Nat)) : List (Nat × Nat) :=
  l.filterMap (fun p => p.1.map (fun h => (h, p.2)))

/-! ### Concrete inputs used by the witness theorems -/

/-- Concrete four-partition state used by witnesses. -/
def wSt4 : PhjState := ⟨[[], [], [], []], none, [], 5⟩

/-- Concrete batch (spec end-to-end scenario 1): four non-NULL rows whose
hashes route them to partitions 0, 1, 2, 3 under `B = 2`. -/
def wRows4 : List BuildRow :=
  [⟨some 0x00000001, [], none⟩, ⟨some 0x40000002, [], none⟩,
   ⟨some 0x80000003, [], none⟩, ⟨some 0xC0000004, [], none⟩]

/-- Concrete state for the null-routing witness (spec scenario 2):
null-aware configured. -/
def wStNull : PhjState := ⟨[[], [], [], []], some [], [], 5⟩

/-- Concrete batch for scenario 2: middle row NULL-keyed. -/
def wRowsNull : List BuildRow :=
  [⟨some 0x10000000, [], none⟩, ⟨none, [], none⟩, ⟨some 0x90000000, [], none⟩]

/-- Concrete filter setup for the bloom witness: one bloom-backed filter. -/
def wFilters : List FilterContext := [⟨true⟩]

def wStBloom : PhjState := ⟨[[], []], some [], [[]], 9⟩

/-- Concrete batch for the bloom witness: one non-NULL row with a value, one
NULL-keyed row (contributing nothing). -/
def wRowsBloom : List BuildRow :=
  [⟨some 5, [some 3], none⟩, ⟨none, [some 4], none⟩]

def wGetH : Option Int → Nat :=
  fun v => match v with | none => 99 | some n => n.natAbs

/-- Batch for the `InsertBatch` witnesses: three rows (length not a multiple
of `C = 2`), middle row NULL-keyed. -/
def wIBRows : List (Option Nat) := [some 5, none, some 7]

def wIBIdx : List Nat := [10, 11, 12]

/-! ### Helper lemmas about the building blocks -/

@[simp] theorem chunksOfGo_nil {α : Type} (C fuel : Nat) :
    chunksOfGo C fuel ([] : List α) = [] := by
  cases fuel <;> rfl

theorem chunksOfGo_fuel {α : Type} (C : Nat) :
    ∀ (n m : Nat) (l : List α), l.length ≤ n → l.length ≤ m →
      chunksOfGo C n l = chunksOfGo C m l := by
  intro n
  induction n with
  | zero =>
    intro m l hn _
    have : l = [] := List.length_eq_zero.mp (Nat.le_zero.mp hn)
    subst this
    simp
  | succ n ih =>
    intro m l hn hm
    cases l with
    | nil => simp
    | cons a l2 =>
      cases m with
      | zero => simp at hm
      | succ m =>
        simp only [chunksOfGo]
        congr 1
        exact ih m (l2.drop (C - 1))
          (by simp only [List.length_drop]; simp at hn; omega)
          (by simp only [List.length_drop]; simp at hm; omega)

@[simp] theorem chunksOf_nil {α : Type} (C : Nat) :
    chunksOf C ([] : List α) = [] := rfl

theorem chunksOf_cons {α : Type} (C : Nat) (a : α) (l : List α) :
    chunksOf C (a :: l) = (a :: l.take (C - 1)) :: chunksOf C (l.drop (C - 1)) := by
  show chunksOfGo C (l.length + 1) (a :: l) = _
  simp only [chunksOfGo]
  congr 1
  exact chunksOfGo_fuel C l.length (l.drop (C - 1)).length (l.drop (C - 1))
    (by simp only [List.length_drop]; omega) le_rfl

theorem appendAt_length (ls : List (List Nat)) (i x : Nat) :
    (appendAt ls i x).length = ls.length := by
  induction ls generalizing i with
  | nil => rfl
  | cons l rest ih =>
    cases i with
    | zero => rfl
    | succ i => simp [appendAt, ih]

theorem appendAt_getD (ls : List (List Nat)) (i x j : Nat) (hi : i < ls.length) :
    (appendAt ls i x).getD j [] =
      if j = i then ls.getD j [] ++ [x] else ls.getD j [] := by
  induction ls generalizing i j with
  | nil => simp at hi
  | cons l rest ih =>
    cases i with
    | zero =>
      cases j with
      | zero => simp [appendAt]
      | succ j => simp [appendAt]
    | succ i =>
      cases j with
      | zero => simp [appendAt]
      | succ j =>
        simp only [appendAt, List.getD_cons_succ, Nat.succ_eq_add_one]
        rw [ih i j (by simpa using hi)]
        simp [Nat.add_right_cancel_iff]

theorem appendAt_lengths_sum (ls : List (List Nat)) (i x : Nat) (hi : i < ls.length) :
    ((appendAt ls i x).map List.length).sum = (ls.map List.length).sum + 1 := by
  induction ls generalizing i with
  | nil => simp at hi
  | cons l rest ih =>
    cases i with
    | zero => simp [appendAt, Nat.add_assoc, Nat.add_comm 1]
    | succ i =>
      simp only [appendAt, List.map_cons, List.sum_cons]
      rw [ih i (by simpa using hi)]
      omega

/-- A 32-bit hash shifted right by `32 - B` is a valid index into the
`2^B` hash partitions. -/
theorem shiftRight_lt_pow (h B : Nat) (hh : h < 2 ^ 32) : h >>> (32 - B) < 2 ^ B := by
  rw [Nat.shiftRight_eq_div_pow]
  have hpos : 0 < 2 ^ (32 - B) := Nat.pos_pow_of_pos _ (by omega)
  rw [Nat.div_lt_iff_lt_mul hpos]
  calc h < 2 ^ 32 := hh
    _ ≤ 2 ^ (B + (32 - B)) := Nat.pow_le_pow_right (by omega) (by omega)
    _ = 2 ^ B * 2 ^ (32 - B) := Nat.pow_add 2 B (32 - B)

theorem bloomInsertRow_length (getH : Option Int → Nat)
    (fv : List (FilterContext × Option Int)) (bs : List (List Nat)) :
    (bloomInsertRow getH fv bs).length = bs.length := by
  induction fv generalizing bs with
  | nil => cases bs <;> rfl
  | cons p rest ih =>
    cases bs with
    | nil => rfl
    | cons b bs => simp [bloomInsertRow, ih]

theorem zipFstSnd {α β : Type} (l : List (α × β)) :
    (l.map Prod.fst).zip (l.map Prod.snd) = l := by
  induction l with
  | nil => rfl
  | cons p l ih => simp [ih]

theorem foldl_writeStep (mode : TPrefetchMode) (g : List (Option Nat)) :
    ∀ (acc : List (Option Nat) × List Nat),
      g.foldl (writeStep mode) acc =
        (acc.1 ++ g,
          acc.2 ++ (if mode = TPrefetchMode.NONE then [] else g.filterMap id)) := by
  induction g with
  | nil => intro acc; simp
  | cons kh g ih =>
    intro acc
    cases kh with
    | some h =>
      simp only [List.foldl_cons, writeStep]
      rw [ih]
      by_cases hm : mode = TPrefetchMode.NONE
      · simp [hm]
      · simp [hm, List.filterMap_cons, List.append_assoc]
    | none =>
      simp only [List.foldl_cons, writeStep]
      rw [ih]
      simp [List.filterMap_cons, List.append_assoc]

/-- The write phase caches one slot per row — NULL rows included — and
prefetches exactly the non-NULL hashes (none at all when prefetching is
disabled). -/
theorem writePhase_eq (mode : TPrefetchMode) (g : List (Option Nat)) :
    writePhase mode g = (g, if mode = TPrefetchMode.NONE then [] else g.filterMap id) := by
  unfold writePhase
  rw [foldl_writeStep]
  simp

theorem readPhase_append (cap : Nat) (x y : List (Option Nat × Nat)) :
    ∀ ht, readPhase cap (x ++ y) ht =
      match readPhase cap x ht with
      | (true, ht1) => readPhase cap y ht1
      | (false, ht1) => (false, ht1) := by
  induction x with
  | nil => intro ht; simp [readPhase]
  | cons p rest ih =>
    intro ht
    rcases p with ⟨slot, idx⟩
    cases slot with
    | none =>
      simp only [List.cons_append, readPhase]
      exact ih ht
    | some h =>
      simp only [List.cons_append, readPhase, htInsert]
      by_cases hlt : ht.length < cap
      · rw [if_pos hlt]
        exact ih (ht ++ [(h, idx)])
      · rw [if_neg hlt]

theorem readPhase_char (cap : Nat) (l : List (Option Nat × Nat)) :
    ∀ ht, readPhase cap l ht =
      if (nonNullPairs l).length ≤ cap - ht.length
      then (true, ht ++ nonNullPairs l)
      else (false, ht ++ (nonNullPairs l).take (cap - ht.length)) := by
  induction l with
  | nil => intro ht; simp [readPhase, nonNullPairs]
  | cons p rest ih =>
    intro ht
    rcases p with ⟨slot, idx⟩
    cases slot with
    | none =>
      simp only [readPhase]
      rw [ih ht]
      simp [nonNullPairs, List.filterMap_cons]
    | some h =>
      have hpairs : nonNullPairs ((some h, idx) :: rest) = (h, idx) :: nonNullPairs rest := by
        simp [nonNullPairs, List.filterMap_cons]
      simp only [readPhase, htInsert]
      by_cases hlt : ht.length < cap
      · rw [if_pos hlt]
        show readPhase cap rest (ht ++ [(h, idx)]) = _
        rw [ih (ht ++ [(h, idx)]), hpairs]
        have hlen : (ht ++ [(h, idx)]).length = ht.length + 1 := by simp
        rw [hlen]
        by_cases hc : (nonNullPairs rest).length ≤ cap - (ht.length + 1)
        · rw [if_pos hc, if_pos (by simp [List.length_cons]; omega)]
          simp [List.append_assoc]
        · rw [if_neg hc, if_neg (by simp [List.length_cons]; omega)]
          have hsub : cap - ht.length = (cap - (ht.length + 1)) + 1 := by omega
          rw [hsub, List.take_succ_cons]
          simp [List.append_assoc]
      · rw [if_neg hlt]
        show (false, ht) = _
        rw [hpairs]
        rw [if_neg (by simp [List.length_cons]; omega)]
        have hsub : cap - ht.length = 0 := by omega
        rw [hsub, List.take_zero, List.append_nil]

/-- Processing the batch in prefetch groups of any size gives the same
success flag and final table as one flat pass: grouping only affects the
prefetch schedule. -/
theorem insertGroups_chunks (mode : TPrefetchMode) (cap C : Nat) :
    ∀ (n : Nat) (l : List (Option Nat × Nat)), l.length ≤ n →
      ∀ (ht : List (Nat × Nat)) (pf : List Nat),
        ((insertGroups mode cap (chunksOf C l) ht pf).1,
          (insertGroups mode cap (chunksOf C l) ht pf).2.1) = readPhase cap l ht := by
  intro n
  induction n with
  | zero =>
    intro l hl ht pf
    have : l = [] := List.length_eq_zero.mp (Nat.le_zero.mp hl)
    subst this
    simp [chunksOf_nil, insertGroups, readPhase]
  | succ n ihn =>
    intro l hl ht pf
    cases l with
    | nil => simp [chunksOf_nil, insertGroups, readPhase]
    | cons a l2 =>
      rw [chunksOf_cons]
      have hsplit : a :: l2 = (a :: l2.take (C - 1)) ++ l2.drop (C - 1) := by
        simp [List.take_append_drop]
      simp only [insertGroups, writePhase_eq, zipFstSnd]
      conv_rhs => rw [hsplit, readPhase_append]
      rcases hread : readPhase cap (a :: l2.take (C - 1)) ht with ⟨b, ht1⟩
      cases b with
      | false => simp
      | true =>
        simp only []
        exact ihn (l2.drop (C - 1))
          (by simp only [List.length_drop]; have := List.length_cons a l2 ▸ hl; omega)
          ht1 _

/-- The prefetch trace of a successful run: the prefetched hashes are
exactly the non-NULL key hashes of the batch, in order, and empty when
prefetching is disabled. -/
theorem insertGroups_pf (mode : TPrefetchMode) (cap C : Nat) :
    ∀ (n : Nat) (l : List (Option Nat × Nat)), l.length ≤ n →
      ∀ (ht : List (Nat × Nat)) (pf : List Nat),
        (readPhase cap l ht).1 = true →
        (insertGroups mode cap (chunksOf C l) ht pf).2.2 =
          pf ++ (if mode = TPrefetchMode.NONE then []
                 else (l.map Prod.fst).filterMap id) := by
  intro n
  induction n with
  | zero =>
    intro l hl ht pf _
    have : l = [] := List.length_eq_zero.mp (Nat.le_zero.mp hl)
    subst this
    simp [chunksOf_nil, insertGroups]
  | succ n ihn =>
    intro l hl ht pf hsucc
    cases l with
    | nil => simp [chunksOf_nil, insertGroups]
    | cons a l2 =>
      rw [chunksOf_cons]
      have hsplit : a :: l2 = (a :: l2.take (C - 1)) ++ l2.drop (C - 1) := by
        simp [List.take_append_drop]
      rw [hsplit, readPhase_append] at hsucc
      simp only [insertGroups, writePhase_eq, zipFstSnd]
      rcases hread : readPhase cap (a :: l2.take (C - 1)) ht with ⟨b, ht1⟩
      rw [hread] at hsucc
      cases b with
      | false => simp at hsucc
      | true =>
        simp only []
        rw [ihn (l2.drop (C - 1))
          (by simp only [List.length_drop]; have := List.length_cons a l2 ▸ hl; omega)
          ht1 _ hsucc]
        by_cases hm : mode = TPrefetchMode.NONE
        · simp [hm]
        · rw [if_neg hm, if_neg hm, if_neg hm]
          conv_rhs => rw [hsplit]
          simp [List.filterMap_append, List.append_assoc]
          rw [← List.filterMap_append, List.cons_append, List.take_append_drop]

theorem bloomInsertRow_getD (getH : Option Int → Nat) (fs : List FilterContext)
    (vs : List (Option Int)) (bs : List (List Nat))
    (hfb : bs.length = fs.length) (hvf : vs.length = fs.length) (k : Nat)
    (hk : k < fs.length) :
    (bloomInsertRow getH (fs.zip vs) bs).getD k [] =
      if (fs.getD k ⟨false⟩).hasBloom then
        bs.getD k [] ++ [getH (vs.getD k none)]
      else bs.getD k [] := by
  induction fs generalizing vs bs k with
  | nil => simp at hk
  | cons f fs ih =>
    cases vs with
    | nil => simp at hvf
    | cons v vs =>
      cases bs with
      | nil => simp at hfb
      | cons b bs =>
        cases k with
        | zero => simp [bloomInsertRow]
        | succ k =>
          simp only [List.zip_cons_cons, bloomInsertRow, List.getD_cons_succ]
          exact ih vs bs (by simpa using hfb) (by simpa using hvf) k (by simpa using hk)

/-! ### Structural lemmas about `processRows` -/

@[simp] theorem applyFilters_hashPartitions (filters : List FilterContext)
    (getH : Option Int → Nat) (bf : Bool) (st : PhjState) (r : BuildRow) :
    (applyFilters filters getH bf st r).hashPartitions = st.hashPartitions := by
  cases bf <;> rfl

@[simp] theorem applyFilters_nullStream (filters : List FilterContext)
    (getH : Option Int → Nat) (bf : Bool) (st : PhjState) (r : BuildRow) :
    (applyFilters filters getH bf st r).nullStream = st.nullStream := by
  cases bf <;> rfl

@[simp] theorem applyFilters_otherState (filters : List FilterContext)
    (getH : Option Int → Nat) (bf : Bool) (st : PhjState) (r : BuildRow) :
    (applyFilters filters getH bf st r).otherState = st.otherState := by
  cases bf <;> rfl

theorem applyFilters_false (filters : List FilterContext)
    (getH : Option Int → Nat) (st : PhjState) (r : BuildRow) :
    applyFilters filters getH false st r = st := rfl

theorem applyFilters_blooms_length (filters : List FilterContext)
    (getH : Option Int → Nat) (bf : Bool) (st : PhjState) (r : BuildRow) :
    (applyFilters filters getH bf st r).blooms.length = st.blooms.length := by
  cases bf with
  | false => rfl
  | true => simp [applyFilters, bloomInsertRow_length]

theorem processRow_nullSome (B : Nat) (filters : List FilterContext)
    (getH : Option Int → Nat) (bf : Bool) (st : PhjState) (pos : Nat) (r : BuildRow) :
    (processRow B filters getH bf st pos r).1.nullStream.isSome = st.nullStream.isSome := by
  cases hk : r.keyHash with
  | none =>
    cases hn : st.nullStream with
    | none => simp [processRow, hk, hn]
    | some ns => cases ha : r.appendErr <;> simp [processRow, hk, hn, ha]
  | some h => cases ha : r.appendErr <;> cases bf <;> simp [processRow, hk, ha]

theorem processRows_nullSome (B : Nat) (filters : List FilterContext)
    (getH : Option Int → Nat) (bf : Bool) (rows : List BuildRow) :
    ∀ (st : PhjState) (pos : Nat),
      (processRows B filters getH bf st pos rows).1.nullStream.isSome =
        st.nullStream.isSome := by
  induction rows with
  | nil => intro st pos; rfl
  | cons r rs ih =>
    intro st pos
    simp only [processRows]
    rcases hstep : processRow B filters getH bf st pos r with ⟨st1, err⟩
    have h1 : st1.nullStream.isSome = st.nullStream.isSome := by
      have := processRow_nullSome B filters getH bf st pos r
      rw [hstep] at this; exact this
    cases err with
    | none => simpa [ih st1 (pos + 1)] using h1
    | some e => simpa using h1

theorem processRows_ok (B : Nat) (filters : List FilterContext)
    (getH : Option Int → Nat) (bf : Bool) (rows : List BuildRow) :
    ∀ (st : PhjState) (pos : Nat),
      (∀ r ∈ rows, rowOk st.nullStream.isSome r = true) →
      (processRows B filters getH bf st pos rows).2 = none := by
  induction rows with
  | nil => intro st pos _; rfl
  | cons r rs ih =>
    intro st pos hok
    have hr : rowOk st.nullStream.isSome r = true := hok r (List.mem_cons_self r rs)
    simp only [processRows]
    rcases hstep : processRow B filters getH bf st pos r with ⟨st1, err⟩
    have herr : err = none := by
      unfold processRow at hstep
      cases hk : r.keyHash with
      | none =>
        rw [hk] at hstep
        cases hn : st.nullStream with
        | none => rw [hn] at hstep; simp at hstep; exact hstep.2.symm
        | some ns =>
          rw [hn] at hstep
          have : r.appendErr = none := by
            unfold rowOk at hr; rw [hk, hn] at hr; simpa using hr
          rw [this] at hstep
          simp at hstep; exact hstep.2.symm
      | some h =>
        rw [hk] at hstep
        have : r.appendErr = none := by
          unfold rowOk at hr; rw [hk] at hr; simpa using hr
        rw [this] at hstep
        simp at hstep; exact hstep.2.symm
    subst herr
    simp only []
    refine ih st1 (pos + 1) ?_
    intro x hx
    have h1 : st1.nullStream.isSome = st.nullStream.isSome := by
      have := processRow_nullSome B filters getH bf st pos r
      rw [hstep] at this; exact this
    rw [h1]
    exact hok x (List.mem_cons_of_mem r hx)

/-- Main characterization of a successful `processRows` run: the run returns
OK, partition stream `j` is extended by exactly the positions routed to `j`,
the null-aware stream (when present) by exactly the NULL-key positions, and
the partition count and the rest of the builder state are untouched. -/
theorem processRows_parts (B : Nat) (filters : List FilterContext)
    (getH : Option Int → Nat) (bf : Bool) (rows : List BuildRow) :
    ∀ (st : PhjState) (pos : Nat),
      st.hashPartitions.length = 2 ^ B →
      (∀ r ∈ rows, rowHashOk r = true) →
      (∀ r ∈ rows, rowOk st.nullStream.isSome r = true) →
      (processRows B filters getH bf st pos rows).2 = none ∧
      (processRows B filters getH bf st pos rows).1.hashPartitions.length = 2 ^ B ∧
      (∀ j, (processRows B filters getH bf st pos rows).1.hashPartitions.getD j [] =
          st.hashPartitions.getD j [] ++ routedPositions B pos rows j) ∧
      (processRows B filters getH bf st pos rows).1.nullStream =
        st.nullStream.map (fun ns => ns ++ nullPositions pos rows) := by
  induction rows with
  | nil =>
    intro st pos hlen _ _
    refine ⟨rfl, hlen, ?_, ?_⟩
    · intro j; simp [processRows, routedPositions]
    · cases hn : st.nullStream <;> simp [processRows, nullPositions, hn]
  | cons r rs ih =>
    intro st pos hlen hhash hok
    have hr : rowOk st.nullStream.isSome r = true := hok r (List.mem_cons_self r rs)
    have hhashr : rowHashOk r = true := hhash r (List.mem_cons_self r rs)
    cases hk : r.keyHash with
    | none =>
      cases hn : st.nullStream with
      | none =>
        have hstep : processRow B filters getH bf st pos r = (st, none) := by
          simp [processRow, hk, hn]
        simp only [processRows, hstep]
        obtain ⟨c1, c2, c3, c4⟩ := ih st (pos + 1) hlen
          (fun x hx => hhash x (List.mem_cons_of_mem r hx))
          (fun x hx => hok x (List.mem_cons_of_mem r hx))
        refine ⟨c1, c2, ?_, ?_⟩
        · intro j
          rw [c3 j]
          simp [routedPositions, hk]
        · rw [c4, hn]
          simp
      | some ns =>
        have ha : r.appendErr = none := by
          unfold rowOk at hr; rw [hk, hn] at hr; simpa using hr
        have hstep : processRow B filters getH bf st pos r =
            ({ st with nullStream := some (ns ++ [pos]) }, none) := by
          simp [processRow, hk, hn, ha]
        simp only [processRows, hstep]
        obtain ⟨c1, c2, c3, c4⟩ :=
          ih { st with nullStream := some (ns ++ [pos]) } (pos + 1) hlen
            (fun x hx => hhash x (List.mem_cons_of_mem r hx))
            (fun x hx => by
              have := hok x (List.mem_cons_of_mem r hx)
              simpa [hn] using this)
        refine ⟨c1, c2, ?_, ?_⟩
        · intro j
          rw [c3 j]
          simp [routedPositions, hk]
        · rw [c4]
          simp [nullPositions, hk, List.append_assoc]
    | some h =>
      have ha : r.appendErr = none := by
        unfold rowOk at hr; rw [hk] at hr; simpa using hr
      have hlt : h >>> (32 - B) < 2 ^ B := by
        apply shiftRight_lt_pow
        unfold rowHashOk at hhashr; rw [hk] at hhashr; simpa using hhashr
      set stf := applyFilters filters getH bf st r with hstf
      have hstep : processRow B filters getH bf st pos r =
          ({ stf with
              hashPartitions := appendAt stf.hashPartitions (h >>> (32 - B)) pos },
            none) := by
        simp [processRow, hk, ha, hstf]
      simp only [processRows, hstep]
      have hfp : stf.hashPartitions = st.hashPartitions := by
        rw [hstf]; exact applyFilters_hashPartitions filters getH bf st r
      have hfn : stf.nullStream = st.nullStream := by
        rw [hstf]; exact applyFilters_nullStream filters getH bf st r
      obtain ⟨c1, c2, c3, c4⟩ :=
        ih { stf with hashPartitions := appendAt stf.hashPartitions (h >>> (32 - B)) pos }
          (pos + 1)
          (by simp [appendAt_length, hfp, hlen])
          (fun x hx => hhash x (List.mem_cons_of_mem r hx))
          (fun x hx => by
            have := hok x (List.mem_cons_of_mem r hx)
            simpa [hfn] using this)
      refine ⟨c1, c2, ?_, ?_⟩
      · intro j
        rw [c3 j]
        simp only [hfp]
        rw [appendAt_getD st.hashPartitions (h >>> (32 - B)) pos j (by rw [hlen]; exact hlt)]
        simp only [routedPositions, hk]
        by_cases hj : j = h >>> (32 - B)
        · rw [if_pos hj, if_pos hj.symm]
          simp [List.append_assoc]
        · rw [if_neg hj, if_neg (fun hc => hj hc.symm)]
          simp
      · rw [c4]
        simp only [hfn]
        simp [nullPositions, hk]

/-- Bloom-filter characterization of a successful run: filter slot `k` is
extended by exactly `bloomContrib getH k rows` when `buildFilters` is set and
the `k`-th context has a bloom filter, and is untouched otherwise. -/
theorem processRows_blooms (B : Nat) (filters : List FilterContext)
    (getH : Option Int → Nat) (bf : Bool) (rows : List BuildRow) :
    ∀ (st : PhjState) (pos : Nat),
      st.blooms.length = filters.length →
      (∀ r ∈ rows, r.filterVals.length = filters.length) →
      (∀ r ∈ rows, rowOk st.nullStream.isSome r = true) →
      (processRows B filters getH bf st pos rows).1.blooms.length = filters.length ∧
      (∀ k, k < filters.length →
        (processRows B filters getH bf st pos rows).1.blooms.getD k [] =
          st.blooms.getD k [] ++
            (if bf && (filters.getD k ⟨false⟩).hasBloom then bloomContrib getH k rows
             else [])) := by
  induction rows with
  | nil =>
    intro st pos hblen _ _
    exact ⟨hblen, fun k _ => by simp [processRows, bloomContrib]⟩
  | cons r rs ih =>
    intro st pos hblen hvals hok
    have hr : rowOk st.nullStream.isSome r = true := hok r (List.mem_cons_self r rs)
    have hvr : r.filterVals.length = filters.length := hvals r (List.mem_cons_self r rs)
    cases hk : r.keyHash with
    | none =>
      cases hn : st.nullStream with
      | none =>
        have hstep : processRow B filters getH bf st pos r = (st, none) := by
          simp [processRow, hk, hn]
        simp only [processRows, hstep]
        obtain ⟨c1, c2⟩ := ih st (pos + 1) hblen
          (fun x hx => hvals x (List.mem_cons_of_mem r hx))
          (fun x hx => hok x (List.mem_cons_of_mem r hx))
        refine ⟨c1, fun k hkk => ?_⟩
        rw [c2 k hkk]
        simp [bloomContrib, hk]
      | some ns =>
        have ha : r.appendErr = none := by
          unfold rowOk at hr; rw [hk, hn] at hr; simpa using hr
        have hstep : processRow B filters getH bf st pos r =
            ({ st with nullStream := some (ns ++ [pos]) }, none) := by
          simp [processRow, hk, hn, ha]
        simp only [processRows, hstep]
        obtain ⟨c1, c2⟩ := ih { st with nullStream := some (ns ++ [pos]) } (pos + 1) hblen
          (fun x hx => hvals x (List.mem_cons_of_mem r hx))
          (fun x hx => by
            have := hok x (List.mem_cons_of_mem r hx)
            simpa [hn] using this)
        refine ⟨c1, fun k hkk => ?_⟩
        rw [c2 k hkk]
        simp [bloomContrib, hk]
    | some h =>
      have ha : r.appendErr = none := by
        unfold rowOk at hr; rw [hk] at hr; simpa using hr
      set stf := applyFilters filters getH bf st r with hstf
      have hstep : processRow B filters getH bf st pos r =
          ({ stf with
              hashPartitions := appendAt stf.hashPartitions (h >>> (32 - B)) pos },
            none) := by
        simp [processRow, hk, ha, hstf]
      simp only [processRows, hstep]
      have hfn : stf.nullStream = st.nullStream := by
        rw [hstf]; exact applyFilters_nullStream filters getH bf st r
      have hfblen : stf.blooms.length = filters.length := by
        rw [hstf, applyFilters_blooms_length]; exact hblen
      obtain ⟨c1, c2⟩ :=
        ih { stf with hashPartitions := appendAt stf.hashPartitions (h >>> (32 - B)) pos }
          (pos + 1) hfblen
          (fun x hx => hvals x (List.mem_cons_of_mem r hx))
          (fun x hx => by
            have := hok x (List.mem_cons_of_mem r hx)
            simpa [hfn] using this)
      refine ⟨c1, fun k hkk => ?_⟩
      rw [c2 k hkk]
      have hcontrib : bloomContrib getH k (r :: rs) =
          getH (r.filterVals.getD k none) :: bloomContrib getH k rs := by
        simp [bloomContrib, hk]
      cases bf with
      | false =>
        have : stf = st := by rw [hstf]; rfl
        simp [this]
      | true =>
        have hsb : stf.blooms = bloomInsertRow getH (filters.zip r.filterVals) st.blooms := by
          rw [hstf]; rfl
        have := bloomInsertRow_getD getH filters r.filterVals st.blooms hblen hvr k hkk
        by_cases hb : (filters.getD k ⟨false⟩).hasBloom
        · rw [if_pos hb] at this
          simp only [hsb, this, hcontrib, hb, Bool.true_and, if_pos hb]
          simp
        · rw [if_neg hb] at this
          simp only [Bool.true_and]
          rw [if_neg hb, if_neg hb]
          simp only [List.append_nil]
          show stf.blooms.getD k [] = st.blooms.getD k []
          rw [hsb]; exact this

/-- Frame lemma (holds also for runs that stop early on an error): the
`otherState` field is never mutated, and with `buildFilters` false the bloom
filters are never mutated. -/
theorem processRows_frame (B : Nat) (filters : List FilterContext)
    (getH : Option Int → Nat) (bf : Bool) (rows : List BuildRow) :
    ∀ (st : PhjState) (pos : Nat),
      (processRows B filters getH bf st pos rows).1.otherState = st.otherState ∧
      (bf = false → (processRows B filters getH bf st pos rows).1.blooms = st.blooms) := by
  induction rows with
  | nil => intro st pos; exact ⟨rfl, fun _ => rfl⟩
  | cons r rs ih =>
    intro st pos
    simp only [processRows]
    rcases hstep : processRow B filters getH bf st pos r with ⟨st1, err⟩
    have hother : st1.otherState = st.otherState := by
      have : (processRow B filters getH bf st pos r).1.otherState = st.otherState := by
        cases hk : r.keyHash with
        | none =>
          cases hn : st.nullStream with
          | none => simp [processRow, hk, hn]
          | some ns => cases ha : r.appendErr <;> simp [processRow, hk, hn, ha]
        | some h => cases ha : r.appendErr <;> simp [processRow, hk, ha]
      rw [hstep] at this; exact this
    have hbl : bf = false → st1.blooms = st.blooms := by
      intro hbf
      subst hbf
      have : (processRow B filters getH false st pos r).1.blooms = st.blooms := by
        cases hk : r.keyHash with
        | none =>
          cases hn : st.nullStream with
          | none => simp [processRow, hk, hn]
          | some ns => cases ha : r.appendErr <;> simp [processRow, hk, hn, ha]
        | some h =>
          cases ha : r.appendErr <;>
            simp [processRow, hk, ha, applyFilters_false]
      rw [hstep] at this; exact this
    cases err with
    | some e => exact ⟨hother, hbl⟩
    | none =>
      obtain ⟨d1, d2⟩ := ih st1 (pos + 1)
      exact ⟨by rw [d1, hother], fun hbf => by rw [d2 hbf, hbl hbf]⟩

/-- Row conservation for a successful run with the null-aware partition
configured: every row is appended to exactly one stream. -/
theorem processRows_total (B : Nat) (filters : List FilterContext)
    (getH : Option Int → Nat) (bf : Bool) (rows : List BuildRow) :
    ∀ (st : PhjState) (pos : Nat),
      st.hashPartitions.length = 2 ^ B →
      st.nullStream.isSome = true →
      (∀ r ∈ rows, rowHashOk r = true) →
      (∀ r ∈ rows, rowOk st.nullStream.isSome r = true) →
      streamTotal (processRows B filters getH bf st pos rows).1 =
        streamTotal st + rows.length := by
  induction rows with
  | nil => intro st pos _ _ _ _; simp [processRows]
  | cons r rs ih =>
    intro st pos hlen hns hhash hok
    have hr : rowOk st.nullStream.isSome r = true := hok r (List.mem_cons_self r rs)
    have hhashr : rowHashOk r = true := hhash r (List.mem_cons_self r rs)
    cases hk : r.keyHash with
    | none =>
      obtain ⟨ns, hn⟩ := Option.isSome_iff_exists.mp hns
      have ha : r.appendErr = none := by
        unfold rowOk at hr; rw [hk, hn] at hr; simpa [hns] using hr
      have hstep : processRow B filters getH bf st pos r =
          ({ st with nullStream := some (ns ++ [pos]) }, none) := by
        simp [processRow, hk, hn, ha]
      simp only [processRows, hstep]
      rw [ih { st with nullStream := some (ns ++ [pos]) } (pos + 1) hlen (by simp)
        (fun x hx => hhash x (List.mem_cons_of_mem r hx))
        (fun x hx => by
          have := hok x (List.mem_cons_of_mem r hx)
          simpa [hn] using this)]
      simp only [streamTotal, hn]
      simp [List.length_cons]
      omega
    | some h =>
      have ha : r.appendErr = none := by
        unfold rowOk at hr; rw [hk] at hr; simpa using hr
      have hlt : h >>> (32 - B) < 2 ^ B := by
        apply shiftRight_lt_pow
        unfold rowHashOk at hhashr; rw [hk] at hhashr; simpa using hhashr
      set stf := applyFilters filters getH bf st r with hstf
      have hstep : processRow B filters getH bf st pos r =
          ({ stf with
              hashPartitions := appendAt stf.hashPartitions (h >>> (32 - B)) pos },
            none) := by
        simp [processRow, hk, ha, hstf]
      simp only [processRows, hstep]
      have hfp : stf.hashPartitions = st.hashPartitions := by
        rw [hstf]; exact applyFilters_hashPartitions filters getH bf st r
      have hfn : stf.nullStream = st.nullStream := by
        rw [hstf]; exact applyFilters_nullStream filters getH bf st r
      rw [ih { stf with hashPartitions := appendAt stf.hashPartitions (h >>> (32 - B)) pos }
        (pos + 1)
        (by simp [appendAt_length, hfp, hlen])
        (by simp [hfn, hns])
        (fun x hx => hhash x (List.mem_cons_of_mem r hx))
        (fun x hx => by
          have := hok x (List.mem_cons_of_mem r hx)
          simpa [hfn] using this)]
      simp only [streamTotal, hfp, hfn]
      rw [appendAt_lengths_sum st.hashPartitions (h >>> (32 - B)) pos (by rw [hlen]; exact hlt)]
      simp [List.length_cons]
      omega

theorem mem_routedPositions_ge (B : Nat) (rows : List BuildRow) :
    ∀ (pos j i : Nat), i ∈ routedPositions B pos rows j → pos ≤ i := by
  induction rows with
  | nil => intro pos j i hmem; simp [routedPositions] at hmem
  | cons r rs ih =>
    intro pos j i hmem
    simp only [routedPositions, List.mem_append] at hmem
    rcases hmem with hmem | hmem
    · cases hk : r.keyHash with
      | none => rw [hk] at hmem; simp at hmem
      | some h =>
        rw [hk] at hmem
        by_cases hj : h >>> (32 - B) = j
        · simp [hj] at hmem; omega
        · simp [hj] at hmem
    · have := ih (pos + 1) j i hmem; omega

theorem routedPositions_pairwise (B : Nat) (rows : List BuildRow) :
    ∀ (pos j : Nat), List.Pairwise (· < ·) (routedPositions B pos rows j) := by
  induction rows with
  | nil => intro pos j; simp [routedPositions]
  | cons r rs ih =>
    intro pos j
    simp only [routedPositions]
    cases hk : r.keyHash with
    | none => simpa using ih (pos + 1) j
    | some h =>
      show List.Pairwise (· < ·)
        ((if h >>> (32 - B) = j then [pos] else []) ++ routedPositions B (pos + 1) rs j)
      by_cases hj : h >>> (32 - B) = j
      · rw [if_pos hj]
        simp only [List.singleton_append]
        refine List.Pairwise.cons ?_ (ih (pos + 1) j)
        intro i hi
        have := mem_routedPositions_ge B rs (pos + 1) j i hi
        omega
      · rw [if_neg hj]; simpa using ih (pos + 1) j

theorem mem_routedPositions (B : Nat) (rows : List BuildRow) :
    ∀ (pos i : Nat), i < rows.length →
      ∀ h, (rows.getD i dRow).keyHash = some h →
        pos + i ∈ routedPositions B pos rows (h >>> (32 - B)) := by
  induction rows with
  | nil => intro pos i hi; simp at hi
  | cons r rs ih =>
    intro pos i hi h hk
    simp only [routedPositions, List.mem_append]
    cases i with
    | zero =>
      left
      simp only [List.getD_cons_zero] at hk
      simp [hk]
    | succ i =>
      right
      simp only [List.getD_cons_succ] at hk
      have := ih (pos + 1) i (by simpa using hi) h hk
      have harith : pos + (i + 1) = pos + 1 + i := by omega
      rw [harith]
      exact this

theorem nullKey_not_routed (B : Nat) (rows : List BuildRow) :
    ∀ (pos m j : Nat), m < rows.length → (rows.getD m dRow).keyHash = none →
      pos + m ∉ routedPositions B pos rows j := by
  induction rows with
  | nil => intro pos m j hm; simp at hm
  | cons r rs ih =>
    intro pos m j hm hk hmem
    simp only [routedPositions, List.mem_append] at hmem
    rcases hmem with hmem | hmem
    · cases hk2 : r.keyHash with
      | none => rw [hk2] at hmem; simp at hmem
      | some h =>
        rw [hk2] at hmem
        by_cases hj : h >>> (32 - B) = j
        · simp [hj] at hmem
          have hm0 : m = 0 := by omega
          subst hm0
          simp only [List.getD_cons_zero] at hk
          rw [hk2] at hk
          exact absurd hk (by simp)
        · simp [hj] at hmem
    · cases m with
      | zero =>
        have := mem_routedPositions_ge B rs (pos + 1) j (pos + 0) hmem
        omega
      | succ m =>
        have harith : pos + (m + 1) = pos + 1 + m := by omega
        rw [harith] at hmem
        exact ih (pos + 1) m j (by simpa using hm) (by simpa using hk) hmem

theorem mem_nullPositions_ge (rows : List BuildRow) :
    ∀ (pos i : Nat), i ∈ nullPositions pos rows → pos ≤ i := by
  induction rows with
  | nil => intro pos i hmem; simp [nullPositions] at hmem
  | cons r rs ih =>
    intro pos i hmem
    simp only [nullPositions, List.mem_append] at hmem
    rcases hmem with hmem | hmem
    · cases hk : r.keyHash with
      | none => rw [hk] at hmem; simp at hmem; omega
      | some h => rw [hk] at hmem; simp at hmem
    · have := ih (pos + 1) i hmem; omega

theorem nullPositions_pairwise (rows : List BuildRow) :
    ∀ (pos : Nat), List.Pairwise (· < ·) (nullPositions pos rows) := by
  induction rows with
  | nil => intro pos; simp [nullPositions]
  | cons r rs ih =>
    intro pos
    simp only [nullPositions]
    cases hk : r.keyHash with
    | some h => simpa using ih (pos + 1)
    | none =>
      simp only [List.singleton_append]
      refine List.Pairwise.cons ?_ (ih (pos + 1))
      intro i hi
      have := mem_nullPositions_ge rs (pos + 1) i hi
      omega

theorem mem_nullPositions (rows : List BuildRow) :
    ∀ (pos i : Nat), i < rows.length → (rows.getD i dRow).keyHash = none →
      pos + i ∈ nullPositions pos rows := by
  induction rows with
  | nil => intro pos i hi; simp at hi
  | cons r rs ih =>
    intro pos i hi hk
    simp only [nullPositions, List.mem_append]
    cases i with
    | zero =>
      left
      simp only [List.getD_cons_zero] at hk
      rw [hk]
      simp
    | succ i =>
      right
      simp only [List.getD_cons_succ] at hk
      have := ih (pos + 1) i (by simpa using hi) hk
      have harith : pos + (i + 1) = pos + 1 + i := by omega
      rw [harith]
      exact this

theorem processRows_append (B : Nat) (filters : List FilterContext)
    (getH : Option Int → Nat) (bf : Bool) (l l' : List BuildRow) :
    ∀ (st : PhjState) (pos : Nat),
      processRows B filters getH bf st pos (l ++ l') =
        match processRows B filters getH bf st pos l with
        | (st1, some e) => (st1, some e)
        | (st1, none) => processRows B filters getH bf st1 (pos + l.length) l' := by
  induction l with
  | nil => intro st pos; simp [processRows]
  | cons r rs ih =>
    intro st pos
    simp only [List.cons_append, processRows]
    rcases hstep : processRow B filters getH bf st pos r with ⟨st1, err⟩
    cases err with
    | some e => simp
    | none =>
      simp only [List.append_eq]
      rw [ih st1 (pos + 1)]
      have : pos + 1 + rs.length = pos + (r :: rs).length := by
        simp [List.length_cons]; omega
      rw [this]

/-! ### Claim theorems -/

/-- C8: `AppendRow` returns OK without invoking the slow path when the
stream's non-growing `AddRow` succeeds; when `AddRow` fails with a non-OK
status it surfaces that status without invoking the slow path; when `AddRow`
fails with an OK status (page full) it invokes `AppendRowStreamFull` exactly
once and returns its status; in every case the stream ends either with the
row appended (whenever the returned status is OK) or with an error
surfaced. -/
theorem appendRow_contract (s : Stream) (r : Nat) (slow : Status) :
    (AppendRow s r AddRowRes.added slow = (Status.ok, ⟨s.rows ++ [r]⟩, 0)) ∧
    (∀ e, AppendRow s r (AddRowRes.hardError e) slow = (Status.error e, s, 0)) ∧
    ((AppendRow s r AddRowRes.pageFull slow).2.2 = 1) ∧
    ((AppendRow s r AddRowRes.pageFull slow).1 = slow) ∧
    (slow = Status.ok → (AppendRow s r AddRowRes.pageFull slow).2.1 = ⟨s.rows ++ [r]⟩) ∧
    (∀ e, slow = Status.error e → (AppendRow s r AddRowRes.pageFull slow).2.1 = s) ∧
    (∀ res, (AppendRow s r res slow).1 = Status.ok →
      (AppendRow s r res slow).2.1.rows = s.rows ++ [r]) := by
  refine ⟨rfl, fun e => rfl, ?_, ?_, ?_, ?_, ?_⟩
  · cases slow <;> rfl
  · cases slow <;> rfl
  · intro h; subst h; rfl
  · intro e h; subst h; rfl
  · intro res h
    cases res with
    | added => rfl
    | hardError e => simp [AppendRow] at h
    | pageFull =>
      cases slow with
      | ok => rfl
      | error e => simp [AppendRow, AppendRowStreamFull] at h

/-- C8 witness: concrete instance of `appendRow_contract` on the page-full
path with an OK slow path. -/
theorem appendRow_contract_witness :
    (AppendRow ⟨[7]⟩ 9 AddRowRes.pageFull Status.ok).2.1 = ⟨[7, 9]⟩ ∧
    (AppendRow ⟨[7]⟩ 9 AddRowRes.pageFull Status.ok).2.2 = 1 := by
  have h := appendRow_contract ⟨[7]⟩ 9 Status.ok
  exact ⟨by rw [h.2.2.2.2.1 rfl]; rfl, h.2.2.1⟩

/-- C9: with `build_filters` false, `ProcessBuildBatch` leaves every bloom
filter unchanged, and regardless of `build_filters` it mutates only the
partition streams (including the null-aware stream) and the bloom filters:
all other builder state (`otherState`) is unchanged.  Both parts hold even
when the run stops early on an append error. -/
theorem processBuildBatch_frame (B : Nat) (filters : List FilterContext)
    (getH : Option Int → Nat) (st : PhjState) (rows : List BuildRow) (bf : Bool) :
    (ProcessBuildBatch B filters getH st rows false).1.blooms = st.blooms ∧
    (ProcessBuildBatch B filters getH st rows bf).1.otherState = st.otherState :=
  ⟨(processRows_frame B filters getH false rows st 0).2 rfl,
    (processRows_frame B filters getH bf rows st 0).1⟩

/-- C10: in `ProcessBuildBatch` with `build_filters` true, a row with a
non-NULL join key whose filter expression evaluates to NULL still has the
hash of the NULL value (`getH none`, modelling
`RawValue::GetHashValue(NULL, type, seed)`) inserted into that filter's
bloom: insertion is not skipped on a NULL filter-expression value. -/
theorem processRow_null_filter_value_inserted (B : Nat)
    (filters : List FilterContext) (getH : Option Int → Nat) (st : PhjState)
    (pos : Nat) (r : BuildRow) (h k : Nat)
    (hblen : st.blooms.length = filters.length)
    (hvlen : r.filterVals.length = filters.length)
    (hkey : r.keyHash = some h)
    (hk : k < filters.length)
    (hb : (filters.getD k ⟨false⟩).hasBloom = true)
    (hval : r.filterVals.getD k none = none) :
    (processRow B filters getH true st pos r).1.blooms.getD k [] =
      st.blooms.getD k [] ++ [getH none] := by
  have hgd := bloomInsertRow_getD getH filters r.filterVals st.blooms hblen hvlen k hk
  rw [if_pos hb, hval] at hgd
  have hbl : (processRow B filters getH true st pos r).1.blooms =
      bloomInsertRow getH (filters.zip r.filterVals) st.blooms := by
    cases ha : r.appendErr <;> simp [processRow, hkey, ha, applyFilters]
  rw [hbl, hgd]

/-- C10 witness: one filter context with a bloom filter, a non-NULL-keyed row
whose filter value is NULL; the bloom receives `getH none = 99`. -/
theorem processRow_null_filter_value_inserted_witness :
    (processRow 2 [⟨true⟩] (fun v => match v with | none => 99 | some n => n.natAbs)
        true ⟨[[], [], [], []], none, [[]], 0⟩ 0 ⟨some 5, [none], none⟩).1.blooms.getD 0 [] =
      ([] : List Nat) ++ [(fun v => match v with | none => 99 | some n => n.natAbs)
        (none : Option Int)] :=
  processRow_null_filter_value_inserted 2 [⟨true⟩]
    (fun v => match v with | none => 99 | some n => n.natAbs)
    ⟨[[], [], [], []], none, [[]], 0⟩ 0 ⟨some 5, [none], none⟩ 5 0
    (by decide) (by decide) (by decide) (by decide) (by decide) (by decide)

/-- C7: if the `AppendRow` call of row `r` fails with hard error `e` (after a
prefix `pre` of rows whose appends succeed), `ProcessBuildBatch` returns that
same error and the run is identical to processing `pre ++ [r]` alone: the
rows after `r` are never processed, so they are appended to no stream and
inserted into no bloom filter. -/
theorem processBuildBatch_error_stops_batch (B : Nat)
    (filters : List FilterContext) (getH : Option Int → Nat) (bf : Bool)
    (st : PhjState) (pre post : List BuildRow) (r : BuildRow) (e : Nat)
    (hpre : ∀ x ∈ pre, rowOk st.nullStream.isSome x = true)
    (hcall : r.keyHash = none → st.nullStream.isSome = true)
    (herr : r.appendErr = some e) :
    ProcessBuildBatch B filters getH st (pre ++ r :: post) bf =
      ProcessBuildBatch B filters getH st (pre ++ [r]) bf ∧
    (ProcessBuildBatch B filters getH st (pre ++ r :: post) bf).2 = some e := by
  unfold ProcessBuildBatch
  have hpre_ok := processRows_ok B filters getH bf pre st 0 hpre
  rcases hrun : processRows B filters getH bf st 0 pre with ⟨st1, err⟩
  have herr0 : err = none := by rw [hrun] at hpre_ok; exact hpre_ok
  subst herr0
  have hns1 : st1.nullStream.isSome = st.nullStream.isSome := by
    have := processRows_nullSome B filters getH bf pre st 0
    rw [hrun] at this; exact this
  have hrowe : ∀ pos : Nat, ∃ st2, processRow B filters getH bf st1 pos r =
      (st2, some e) := by
    intro pos
    cases hk : r.keyHash with
    | some h =>
      exact ⟨applyFilters filters getH bf st1 r, by simp [processRow, hk, herr]⟩
    | none =>
      have h1 : st1.nullStream.isSome = true := by rw [hns1]; exact hcall hk
      obtain ⟨ns, hn⟩ := Option.isSome_iff_exists.mp h1
      exact ⟨st1, by simp [processRow, hk, hn, herr]⟩
  obtain ⟨st2, hrow⟩ := hrowe pre.length
  rw [processRows_append B filters getH bf pre (r :: post) st 0, hrun]
  rw [processRows_append B filters getH bf pre [r] st 0, hrun]
  simp only []
  constructor
  · simp [processRows, hrow]
  · simp [processRows, hrow]

/-- C7 witness: a two-partition builder; the second row's append fails with
error 42; the third row is never processed. -/
theorem processBuildBatch_error_stops_batch_witness :
    (ProcessBuildBatch 1 [] (fun _ => 0) ⟨[[], []], none, [], 3⟩
        ([⟨some 1, [], none⟩] ++ ⟨some 2, [], some 42⟩ :: [⟨some (2 ^ 31), [], none⟩]) false =
      ProcessBuildBatch 1 [] (fun _ => 0) ⟨[[], []], none, [], 3⟩
        ([⟨some 1, [], none⟩] ++ [⟨some 2, [], some 42⟩]) false) ∧
    (ProcessBuildBatch 1 [] (fun _ => 0) ⟨[[], []], none, [], 3⟩
        ([⟨some 1, [], none⟩] ++ ⟨some 2, [], some 42⟩ :: [⟨some (2 ^ 31), [], none⟩])
        false).2 = some 42 :=
  processBuildBatch_error_stops_batch 1 [] (fun _ => 0) false ⟨[[], []], none, [], 3⟩
    [⟨some 1, [], none⟩] [⟨some (2 ^ 31), [], none⟩] ⟨some 2, [], some 42⟩ 42
    (by decide) (by decide) (by decide)

/-- C1: for every row of a batch processed successfully by
`ProcessBuildBatch` whose join keys evaluate non-NULL, the row's position is
appended to the stream of the partition indexed by its 32-bit key hash
shifted right by `32 - B`, that index is in range, and there are exactly
`2 ^ B` hash partitions throughout. -/
theorem processBuildBatch_routes_by_hash_top_bits (B : Nat)
    (filters : List FilterContext) (getH : Option Int → Nat) (bf : Bool)
    (st : PhjState) (rows : List BuildRow)
    (hlen : st.hashPartitions.length = 2 ^ B)
    (hhash : ∀ r ∈ rows, rowHashOk r = true)
    (hok : ∀ r ∈ rows, rowOk st.nullStream.isSome r = true) :
    (ProcessBuildBatch B filters getH st rows bf).2 = none ∧
    (ProcessBuildBatch B filters getH st rows bf).1.hashPartitions.length = 2 ^ B ∧
    (∀ j, (ProcessBuildBatch B filters getH st rows bf).1.hashPartitions.getD j [] =
        st.hashPartitions.getD j [] ++ routedPositions B 0 rows j) ∧
    (∀ i h, i < rows.length → (rows.getD i dRow).keyHash = some h →
      h >>> (32 - B) < 2 ^ B ∧
      i ∈ (ProcessBuildBatch B filters getH st rows bf).1.hashPartitions.getD
            (h >>> (32 - B)) []) := by
  obtain ⟨c1, c2, c3, c4⟩ := processRows_parts B filters getH bf rows st 0 hlen hhash hok
  refine ⟨c1, c2, c3, ?_⟩
  intro i h hi hk
  have hmem : rows.getD i dRow ∈ rows := by
    rw [List.getD_eq_getElem rows dRow hi]
    exact List.getElem_mem hi
  have hlt : h >>> (32 - B) < 2 ^ B := by
    apply shiftRight_lt_pow
    have := hhash _ hmem
    unfold rowHashOk at this
    rw [hk] at this
    simpa using this
  refine ⟨hlt, ?_⟩
  show i ∈ (processRows B filters getH bf st 0 rows).1.hashPartitions.getD
      (h >>> (32 - B)) []
  rw [c3 (h >>> (32 - B))]
  apply List.mem_append_right
  have := mem_routedPositions B rows 0 i hi h hk
  simpa using this

/-- C1 witness: `processBuildBatch_routes_by_hash_top_bits` instantiated on
scenario 1. -/
theorem processBuildBatch_routes_by_hash_top_bits_witness :
    (ProcessBuildBatch 2 [] (fun _ => 0) wSt4 wRows4 false).2 = none ∧
    (ProcessBuildBatch 2 [] (fun _ => 0) wSt4 wRows4 false).1.hashPartitions.length
        = 2 ^ 2 ∧
    (∀ j, (ProcessBuildBatch 2 [] (fun _ => 0) wSt4 wRows4 false).1.hashPartitions.getD
          j [] =
        wSt4.hashPartitions.getD j [] ++ routedPositions 2 0 wRows4 j) ∧
    (∀ i h, i < wRows4.length → (wRows4.getD i dRow).keyHash = some h →
      h >>> (32 - 2) < 2 ^ 2 ∧
      i ∈ (ProcessBuildBatch 2 [] (fun _ => 0) wSt4 wRows4 false).1.hashPartitions.getD
            (h >>> (32 - 2)) []) :=
  processBuildBatch_routes_by_hash_top_bits 2 [] (fun _ => 0) false wSt4 wRows4
    (by decide) (by decide) (by decide)

/-- C5: for every row of a successfully processed batch whose join keys
evaluate NULL, the row is appended to the null-aware partition's stream when
that partition is configured, and dropped otherwise (appended to no stream at
all); and such a row is never appended to any of the `2 ^ B` hash
partitions. -/
theorem processBuildBatch_null_routing (B : Nat)
    (filters : List FilterContext) (getH : Option Int → Nat) (bf : Bool)
    (st : PhjState) (rows : List BuildRow)
    (hlen : st.hashPartitions.length = 2 ^ B)
    (hhash : ∀ r ∈ rows, rowHashOk r = true)
    (hok : ∀ r ∈ rows, rowOk st.nullStream.isSome r = true) :
    (∀ ns, st.nullStream = some ns →
      (ProcessBuildBatch B filters getH st rows bf).1.nullStream =
        some (ns ++ nullPositions 0 rows)) ∧
    (st.nullStream = none →
      (ProcessBuildBatch B filters getH st rows bf).1.nullStream = none) ∧
    (∀ i, i < rows.length → (rows.getD i dRow).keyHash = none →
      (∀ ns, st.nullStream = some ns →
        i ∈ ((ProcessBuildBatch B filters getH st rows bf).1.nullStream.getD [])) ∧
      (∀ j, (ProcessBuildBatch B filters getH st rows bf).1.hashPartitions.getD j [] =
          st.hashPartitions.getD j [] ++ routedPositions B 0 rows j ∧
        i ∉ routedPositions B 0 rows j)) := by
  obtain ⟨c1, c2, c3, c4⟩ := processRows_parts B filters getH bf rows st 0 hlen hhash hok
  refine ⟨?_, ?_, ?_⟩
  · intro ns hn
    show (processRows B filters getH bf st 0 rows).1.nullStream = _
    rw [c4, hn]
    rfl
  · intro hn
    show (processRows B filters getH bf st 0 rows).1.nullStream = none
    rw [c4, hn]
    rfl
  · intro i hi hk
    constructor
    · intro ns hn
      show i ∈ ((processRows B filters getH bf st 0 rows).1.nullStream.getD [])
      rw [c4, hn]
      show i ∈ ns ++ nullPositions 0 rows
      apply List.mem_append_right
      have := mem_nullPositions rows 0 i hi hk
      rwa [Nat.zero_add] at this
    · intro j
      refine ⟨c3 j, ?_⟩
      have := nullKey_not_routed B rows 0 i j hi hk
      rwa [Nat.zero_add] at this

/-- C5 witness: `processBuildBatch_null_routing` instantiated on
scenario 2. -/
theorem processBuildBatch_null_routing_witness :
    (∀ ns, wStNull.nullStream = some ns →
      (ProcessBuildBatch 2 [] (fun _ => 0) wStNull wRowsNull false).1.nullStream =
        some (ns ++ nullPositions 0 wRowsNull)) ∧
    (wStNull.nullStream = none →
      (ProcessBuildBatch 2 [] (fun _ => 0) wStNull wRowsNull false).1.nullStream = none) ∧
    (∀ i, i < wRowsNull.length → (wRowsNull.getD i dRow).keyHash = none →
      (∀ ns, wStNull.nullStream = some ns →
        i ∈ ((ProcessBuildBatch 2 [] (fun _ => 0) wStNull
                wRowsNull false).1.nullStream.getD [])) ∧
      (∀ j, (ProcessBuildBatch 2 [] (fun _ => 0) wStNull
              wRowsNull false).1.hashPartitions.getD j [] =
          wStNull.hashPartitions.getD j [] ++ routedPositions 2 0 wRowsNull j ∧
        i ∉ routedPositions 2 0 wRowsNull j)) :=
  processBuildBatch_null_routing 2 [] (fun _ => 0) false wStNull wRowsNull
    (by decide) (by decide) (by decide)

theorem mem_bloomContrib (getH : Option Int → Nat) (k : Nat) (rows : List BuildRow)
    (i h : Nat) (hi : i < rows.length) (hk : (rows.getD i dRow).keyHash = some h) :
    getH ((rows.getD i dRow).filterVals.getD k none) ∈ bloomContrib getH k rows := by
  unfold bloomContrib
  apply List.mem_filterMap.mpr
  refine ⟨rows.getD i dRow, ?_, ?_⟩
  · rw [List.getD_eq_getElem rows dRow hi]
    exact List.getElem_mem hi
  · rw [hk]

/-- C3: after a successful `ProcessBuildBatch` with `build_filters` true,
every filter context with a bloom filter has received exactly the hashes
(`getH`, modelling `RawValue::GetHashValue` with the default filter seed) of
its expression value on every non-NULL-keyed row — so it contains at least
that set — and NULL-keyed rows contribute no hash to any filter (the new
content is exactly `bloomContrib`, which draws only from non-NULL-keyed
rows). -/
theorem processBuildBatch_bloom_superset (B : Nat)
    (filters : List FilterContext) (getH : Option Int → Nat)
    (st : PhjState) (rows : List BuildRow)
    (hblen : st.blooms.length = filters.length)
    (hvals : ∀ r ∈ rows, r.filterVals.length = filters.length)
    (hok : ∀ r ∈ rows, rowOk st.nullStream.isSome r = true) :
    ∀ k, k < filters.length → (filters.getD k ⟨false⟩).hasBloom = true →
      ((ProcessBuildBatch B filters getH st rows true).1.blooms.getD k [] =
        st.blooms.getD k [] ++ bloomContrib getH k rows) ∧
      (∀ i h, i < rows.length → (rows.getD i dRow).keyHash = some h →
        getH ((rows.getD i dRow).filterVals.getD k none) ∈
          (ProcessBuildBatch B filters getH st rows true).1.blooms.getD k []) := by
  obtain ⟨c1, c2⟩ := processRows_blooms B filters getH true rows st 0 hblen hvals hok
  intro k hk hb
  have heq := c2 k hk
  rw [hb] at heq
  simp only [Bool.and_self, if_pos rfl] at heq
  have heq2 : (ProcessBuildBatch B filters getH st rows true).1.blooms.getD k [] =
      st.blooms.getD k [] ++ bloomContrib getH k rows := heq
  refine ⟨heq2, ?_⟩
  intro i h hi hkey
  rw [heq2]
  exact List.mem_append_right _ (mem_bloomContrib getH k rows i h hi hkey)

/-- C3 witness: `processBuildBatch_bloom_superset` instantiated at filter 0
and row 0 of the concrete bloom scenario. -/
theorem processBuildBatch_bloom_superset_witness :
    ((ProcessBuildBatch 1 wFilters wGetH wStBloom wRowsBloom true).1.blooms.getD 0 [] =
      wStBloom.blooms.getD 0 [] ++ bloomContrib wGetH 0 wRowsBloom) ∧
    wGetH ((wRowsBloom.getD 0 dRow).filterVals.getD 0 none) ∈
      (ProcessBuildBatch 1 wFilters wGetH wStBloom wRowsBloom true).1.blooms.getD 0 [] := by
  have h := processBuildBatch_bloom_superset 1 wFilters wGetH wStBloom wRowsBloom
    (by decide) (by decide) (by decide) 0 (by decide) (by decide)
  exact ⟨h.1, h.2 0 5 (by decide) (by decide)⟩

/-- C6 counterexample: with the null-aware partition NOT configured, a batch
with one NULL-keyed row is processed successfully but the row is dropped
(the source simply `continue`s), so the total number of rows appended across
the `2 ^ B` partition streams plus the (absent) null-aware stream is 0, not
`|R| = 1`. -/
theorem processBuildBatch_conservation_cex :
    (ProcessBuildBatch 1 [] (fun _ => 0) ⟨[[], []], none, [], 0⟩
        [⟨none, [], none⟩] false).2 = none ∧
    ([(⟨none, [], none⟩ : BuildRow)] : List BuildRow).length = 1 ∧
    ¬ (streamTotal (ProcessBuildBatch 1 [] (fun _ => 0) ⟨[[], []], none, [], 0⟩
          [⟨none, [], none⟩] false).1 =
        streamTotal ⟨[[], []], none, [], 0⟩ +
          ([(⟨none, [], none⟩ : BuildRow)] : List BuildRow).length) := by
  decide

/-- C6 amended: provided the null-aware partition is configured, for every
row sequence processed successfully by `ProcessBuildBatch` the total number
of rows across the `2 ^ B` partition streams plus the null-aware stream grows
by exactly `|R|`, and within each destination stream the appended positions
appear in input order (strictly increasing); without the null-aware
partition, NULL-keyed rows are dropped and the total falls short by their
count. -/
theorem processBuildBatch_conservation (B : Nat)
    (filters : List FilterContext) (getH : Option Int → Nat) (bf : Bool)
    (st : PhjState) (rows : List BuildRow)
    (hlen : st.hashPartitions.length = 2 ^ B)
    (hns : st.nullStream.isSome = true)
    (hhash : ∀ r ∈ rows, rowHashOk r = true)
    (hok : ∀ r ∈ rows, rowOk st.nullStream.isSome r = true) :
    (ProcessBuildBatch B filters getH st rows bf).2 = none ∧
    streamTotal (ProcessBuildBatch B filters getH st rows bf).1 =
      streamTotal st + rows.length ∧
    (∀ j, (ProcessBuildBatch B filters getH st rows bf).1.hashPartitions.getD j [] =
        st.hashPartitions.getD j [] ++ routedPositions B 0 rows j ∧
      List.Pairwise (· < ·) (routedPositions B 0 rows j)) ∧
    ((ProcessBuildBatch B filters getH st rows bf).1.nullStream =
        st.nullStream.map (fun ns => ns ++ nullPositions 0 rows) ∧
      List.Pairwise (· < ·) (nullPositions 0 rows)) := by
  obtain ⟨c1, c2, c3, c4⟩ := processRows_parts B filters getH bf rows st 0 hlen hhash hok
  refine ⟨c1, ?_, ?_, c4, nullPositions_pairwise rows 0⟩
  · exact processRows_total B filters getH bf rows st 0 hlen hns hhash hok
  · intro j
    exact ⟨c3 j, routedPositions_pairwise B rows 0 j⟩

/-- C6 witness: `processBuildBatch_conservation` instantiated on scenario 2
(three rows, one NULL-keyed, null-aware configured). -/
theorem processBuildBatch_conservation_witness :
    (ProcessBuildBatch 2 [] (fun _ => 0) wStNull wRowsNull false).2 = none ∧
    streamTotal (ProcessBuildBatch 2 [] (fun _ => 0) wStNull wRowsNull false).1 =
      streamTotal wStNull + wRowsNull.length ∧
    (∀ j, (ProcessBuildBatch 2 [] (fun _ => 0) wStNull
            wRowsNull false).1.hashPartitions.getD j [] =
        wStNull.hashPartitions.getD j [] ++ routedPositions 2 0 wRowsNull j ∧
      List.Pairwise (· < ·) (routedPositions 2 0 wRowsNull j)) ∧
    ((ProcessBuildBatch 2 [] (fun _ => 0) wStNull wRowsNull false).1.nullStream =
        wStNull.nullStream.map (fun ns => ns ++ nullPositions 0 wRowsNull) ∧
      List.Pairwise (· < ·) (nullPositions 0 wRowsNull)) :=
  processBuildBatch_conservation 2 [] (fun _ => 0) false wStNull wRowsNull
    (by decide) (by decide) (by decide) (by decide)

/-- C2: whenever `Partition::InsertBatch` returns true on a batch and a
parallel index vector, starting from an empty hash table, the final table
holds exactly the (hash, RowIdx) pairs of the non-NULL-keyed rows, the
RowIdx of batch row `i` being `indices[i]`; this holds for every batch
length (in particular when it is not a multiple of the cache capacity `C`),
NULL-keyed rows are skipped for both prefetch (the prefetched hashes are
exactly the non-NULL hashes, or none with prefetching disabled) and insert,
and every row — NULL-keyed included — consumes one evaluator-cache slot
(the write phase emits `g.map Prod.fst` per group). -/
theorem insertBatch_success_exact (mode : TPrefetchMode) (C cap : Nat)
    (rows : List (Option Nat)) (indices : List Nat)
    (hlen : rows.length = indices.length) (hC : 0 < C)
    (hsucc : (InsertBatch mode C cap rows indices).1 = true) :
    (InsertBatch mode C cap rows indices).2.1 = nonNullPairs (rows.zip indices) ∧
    (InsertBatch mode C cap rows indices).2.2 =
      (if mode = TPrefetchMode.NONE then [] else rows.filterMap id) ∧
    (∀ g ∈ chunksOf C (rows.zip indices),
      (writePhase mode (g.map Prod.fst)).1 = g.map Prod.fst) := by
  have hpair := insertGroups_chunks mode cap C (rows.zip indices).length
    (rows.zip indices) le_rfl [] []
  have h1 : (readPhase cap (rows.zip indices) []).1 = true := by
    rw [← hpair]; exact hsucc
  have hchar := readPhase_char cap (rows.zip indices) []
  by_cases hcond :
      (nonNullPairs (rows.zip indices)).length ≤ cap - ([] : List (Nat × Nat)).length
  · refine ⟨?_, ?_, fun g _ => by rw [writePhase_eq]⟩
    · have hsnd := congrArg Prod.snd hpair
      rw [hchar, if_pos hcond] at hsnd
      simpa using hsnd
    · have hpf := insertGroups_pf mode cap C (rows.zip indices).length
        (rows.zip indices) le_rfl [] [] h1
      have hzf : (rows.zip indices).map Prod.fst = rows :=
        List.map_fst_zip rows indices (le_of_eq hlen)
      rw [hzf] at hpf
      simpa using hpf
  · rw [hchar, if_neg hcond] at h1
    simp at h1

/-- C2 witness: `insertBatch_success_exact` with `C = 2` on a 3-row batch
with a NULL-keyed row and prefetching enabled. -/
theorem insertBatch_success_exact_witness :
    (InsertBatch TPrefetchMode.HT_BUCKET 2 16 wIBRows wIBIdx).2.1 =
        nonNullPairs (wIBRows.zip wIBIdx) ∧
    (InsertBatch TPrefetchMode.HT_BUCKET 2 16 wIBRows wIBIdx).2.2 =
      (if TPrefetchMode.HT_BUCKET = TPrefetchMode.NONE then []
       else wIBRows.filterMap id) ∧
    (∀ g ∈ chunksOf 2 (wIBRows.zip wIBIdx),
      (writePhase TPrefetchMode.HT_BUCKET (g.map Prod.fst)).1 = g.map Prod.fst) :=
  insertBatch_success_exact TPrefetchMode.HT_BUCKET 2 16 wIBRows wIBIdx
    (by decide) (by decide) (by decide)

/-- C4: when the attempted inserts outnumber the hash table's capacity,
`HashTable::Insert` fails on the first insert past capacity (the `cap`-th
attempted row, 0-indexed), `InsertBatch` returns false immediately, the
non-NULL-keyed rows attempted before that point are all inserted with their
matching RowIdx (the table equals the first `cap` non-NULL pairs), and no
later row is inserted. -/
theorem insertBatch_failure_take_cap (mode : TPrefetchMode) (C cap : Nat)
    (rows : List (Option Nat)) (indices : List Nat)
    (hlen : rows.length = indices.length) (hC : 0 < C)
    (hover : cap < (nonNullPairs (rows.zip indices)).length) :
    (InsertBatch mode C cap rows indices).1 = false ∧
    (InsertBatch mode C cap rows indices).2.1 =
      (nonNullPairs (rows.zip indices)).take cap := by
  have hpair := insertGroups_chunks mode cap C (rows.zip indices).length
    (rows.zip indices) le_rfl [] []
  have hchar := readPhase_char cap (rows.zip indices) []
  have hcond : ¬ (nonNullPairs (rows.zip indices)).length ≤
      cap - ([] : List (Nat × Nat)).length := by
    simp only [List.length_nil, Nat.sub_zero]
    omega
  rw [hchar, if_neg hcond] at hpair
  constructor
  · have := congrArg Prod.fst hpair
    simpa using this
  · have := congrArg Prod.snd hpair
    simpa using this

/-- C4 witness: capacity 2 exhausted by a 3-row all-non-NULL batch: returns
false with exactly the first two pairs inserted. -/
theorem insertBatch_failure_take_cap_witness :
    (InsertBatch TPrefetchMode.NONE 2 2 [some 1, some 2, some 3] [0, 1, 2]).1 = false ∧
    (InsertBatch TPrefetchMode.NONE 2 2 [some 1, some 2, some 3] [0, 1, 2]).2.1 =
      (nonNullPairs (([some 1, some 2, some 3] : List (Option Nat)).zip
        ([0, 1, 2] : List Nat))).take 2 :=
  insertBatch_failure_take_cap TPrefetchMode.NONE 2 2 [some 1, some 2, some 3] [0, 1, 2]
    (by decide) (by decide) (by decide)

end Impala
